import Mathlib

/-
Verification of the suspect-region detection pipeline of baga's Structure
module (Structure.py): ratio model, windowed mean, insert-size estimation,
threshold hysteresis scan, and gap-bridging region extension.

The embedding mirrors the Python 2 source: integer division on nonnegative
ints is Nat division (floor), Python floats are modelled as rationals,
Python lists / array.array values as Lean lists, and fallible computations
(unhandled ZeroDivisionError) as Option.
-/

namespace Baga

/-! ## RatioModel: Checker.getProperRatios (Structure.py lines 388-414)

For each `(total, proper)` pair of counts the source does:
`if total >= proper > 0: append((total - proper) / float(proper))`
`elif total > proper == 0: append(total)`
`else: append(-1)`. -/

/-- Per-position ratio of a `(total, proper)` count pair, as computed by the
loop body of `Checker.getProperRatios`. -/
def ratioOf (total proper : ℕ) : ℚ :=
  if proper ≤ total ∧ 0 < proper then ((total : ℚ) - (proper : ℚ)) / (proper : ℚ)
  else if proper < total ∧ proper = 0 then (total : ℚ)
  else -1

/-- `Checker.getProperRatios`: the counts are walked with `izip`, which pairs
index-wise and truncates at the shorter input. -/
def getProperRatios (total proper : List ℕ) : List ℚ :=
  List.zipWith ratioOf total proper

/-- Helper: pointwise description of `zipWith` through optional indexing. -/
theorem zipWith_getElem?_eq {α β γ : Type} (f : α → β → γ) :
    ∀ (l1 : List α) (l2 : List β) (i : ℕ) (a : α) (b : β),
      l1[i]? = some a → l2[i]? = some b → (List.zipWith f l1 l2)[i]? = some (f a b) := by
  intro l1
  induction l1 with
  | nil => intro l2 i a b h1 _; simp at h1
  | cons x xs ih =>
    intro l2 i a b h1 h2
    cases l2 with
    | nil => simp at h2
    | cons y ys =>
      cases i with
      | zero =>
        simp at h1 h2
        simp [List.zipWith, h1, h2]
      | succ n =>
        simp at h1 h2
        simpa [List.zipWith] using ih ys n a b h1 h2

/-- Claim C1 (corrected), counterexample: at the count pair `(total, proper)
= (1, 2)` the code emits the sentinel `-1`, whereas the claim's "otherwise"
branch `(total - proper) / proper` would give `-1/2`. -/
theorem ratioOf_claim_cex : ratioOf 1 2 = -1 ∧ ((1 : ℚ) - 2) / 2 ≠ -1 := by
  constructor
  · simp [ratioOf]
  · norm_num

/-- Claim C1 (amended): case analysis of `Checker.getProperRatios` per pair.
The sentinel `-1` is emitted when `total == proper == 0`; `total` when
`proper == 0 < total`; `(total - proper)/proper` when `0 < proper ≤ total`;
and pairs with `total < proper` (unexpected upstream data) also yield `-1`. -/
theorem ratioOf_cases (t p : ℕ) :
    (t = 0 ∧ p = 0 → ratioOf t p = -1) ∧
    (p = 0 → 0 < t → ratioOf t p = (t : ℚ)) ∧
    (0 < p → p ≤ t → ratioOf t p = ((t : ℚ) - (p : ℚ)) / (p : ℚ)) ∧
    (0 < p → t = p → ratioOf t p = 0) ∧
    (t < p → ratioOf t p = -1) := by
  refine ⟨?_, ?_, ?_, ?_, ?_⟩
  · rintro ⟨ht, hp⟩
    simp [ratioOf, ht, hp]
  · intro hp ht
    have h1 : ¬(p ≤ t ∧ 0 < p) := by omega
    simp [ratioOf, h1, hp, ht]
  · intro hp hle
    simp [ratioOf, hp, hle]
  · intro hp heq
    subst heq
    simp [ratioOf, hp]
  · intro hlt
    have h1 : ¬(p ≤ t ∧ 0 < p) := by omega
    have h2 : ¬(p < t ∧ p = 0) := by omega
    simp [ratioOf, h1, h2]

/-- Witness for `ratioOf_cases` at the concrete pair `(4, 2)`. -/
theorem ratioOf_cases_witness :
    (0 < 2 ∧ 2 ≤ 4) ∧ ratioOf 4 2 = (((4 : ℕ) : ℚ) - ((2 : ℕ) : ℚ)) / ((2 : ℕ) : ℚ) :=
  ⟨⟨by decide, by decide⟩, (ratioOf_cases 4 2).2.2.1 (by decide) (by decide)⟩

/-- Claim C10: `getProperRatios` pairs positions index-wise up to the shorter
input (`izip` truncation): the result length is the minimum of the two input
lengths and each retained position is the ratio of the corresponding pair. -/
theorem getProperRatios_min_length (total proper : List ℕ) :
    (getProperRatios total proper).length = min total.length proper.length ∧
    ∀ (i : ℕ) (a b : ℕ), total[i]? = some a → proper[i]? = some b →
      (getProperRatios total proper)[i]? = some (ratioOf a b) := by
  constructor
  · simp [getProperRatios]
  · intro i a b h1 h2
    exact zipWith_getElem?_eq ratioOf total proper i a b h1 h2

/-- Witness for `getProperRatios_min_length` on inputs of unequal length. -/
theorem getProperRatios_min_length_witness :
    ([5, 3, 7] : List ℕ)[0]? = some 5 ∧ ([2, 9] : List ℕ)[0]? = some 2 ∧
    (getProperRatios [5, 3, 7] [2, 9]).length = min 3 2 ∧
    (getProperRatios [5, 3, 7] [2, 9])[0]? = some (ratioOf 5 2) :=
  ⟨by decide, by decide, (getProperRatios_min_length [5, 3, 7] [2, 9]).1,
    (getProperRatios_min_length [5, 3, 7] [2, 9]).2 0 5 2 (by decide) (by decide)⟩

/-! ## WindowedMean: Checker.getSmoothedRatios (Structure.py lines 418-450)

The window starts are `range(0, len(ratios)*resolution - window,
resolution)[::step]` (Python 2 ints); each window takes the slice
`ratios[i/resolution : (i+window)/resolution]`, keeps values `>= 0`, pads
with zeros up to the half-window minimum when at most half survive, and
appends the mean. -/

/-- Window slice `use_ratios[(i / resolution) : ((i + window) / resolution)]`. -/
def windowSlice (ratios : List ℚ) (i window res : ℕ) : List ℚ :=
  (ratios.drop (i / res)).take ((i + window) / res - i / res)

/-- Values surviving the `t >= 0` exclusion inside one window. -/
def surviving (ratios : List ℚ) (i window res : ℕ) : List ℚ :=
  (windowSlice ratios i window res).filter (fun t => decide (0 ≤ t))

/-- Window contents after the half-window zero-padding rule:
`these += [0] * int(window / 2.0 / resolution - len(these))` applied when
`len(these) <= window / 2.0 / resolution`. -/
def theseFinal (ratios : List ℚ) (i window res : ℕ) : List ℚ :=
  if ((surviving ratios i window res).length : ℚ) ≤ (window : ℚ) / (2 * (res : ℚ)) then
    surviving ratios i window res ++
      List.replicate ((Int.floor ((window : ℚ) / (2 * (res : ℚ)) -
        ((surviving ratios i window res).length : ℚ))).toNat) 0
  else surviving ratios i window res

/-- Mean of one window, `sum(these) / float(len(these))`. -/
def windowMean (ratios : List ℚ) (i window res : ℕ) : ℚ :=
  (theseFinal ratios i window res).sum / ((theseFinal ratios i window res).length : ℚ)

/-- Window start positions `range(0, len*res - window, res)[::step]`. -/
def selectedStarts (len window step res : ℕ) : List ℕ :=
  (List.range (((len * res - window + res - 1) / res + step - 1) / step)).map
    (fun k => k * step * res)

/-- `Checker.getSmoothedRatios`: one mean per selected window start. -/
def getSmoothedRatios (ratios : List ℚ) (window step res : ℕ) : List ℚ :=
  (selectedStarts ratios.length window step res).map (fun i => windowMean ratios i window res)

/-- Helper: each selected window start is a multiple of the resolution and
its window ends strictly inside the series extent. -/
theorem selectedStarts_spec (len w step res : ℕ) (hres : 0 < res) (hstep : 0 < step) :
    ∀ i ∈ selectedStarts len w step res, ∃ m : ℕ, i = m * res ∧ i + w < len * res := by
  intro i hi
  unfold selectedStarts at hi
  obtain ⟨k, hk, rfl⟩ := List.mem_map.mp hi
  rw [List.mem_range] at hk
  refine ⟨k * step, rfl, ?_⟩
  set C := (len * res - w + res - 1) / res with hC
  have h1 : k + 1 ≤ (C + step - 1) / step := hk
  have h2 := (Nat.le_div_iff_mul_le hstep).mp h1
  rw [Nat.succ_mul] at h2
  set A := k * step with hA
  have h3 : A + 1 ≤ C := by omega
  have h4 := (Nat.le_div_iff_mul_le hres).mp h3
  rw [Nat.succ_mul] at h4
  set B := A * res with hB
  set L := len * res with hL
  omega

/-- Helper: sum of a list all whose entries equal `v`. -/
theorem list_sum_all_eq (l : List ℚ) (v : ℚ) (h : ∀ x ∈ l, x = v) :
    l.sum = (l.length : ℚ) * v := by
  induction l with
  | nil => simp
  | cons x xs ih =>
    have hx : x = v := h x (by simp)
    have hxs : xs.sum = (xs.length : ℚ) * v := ih (fun y hy => h y (by simp [hy]))
    simp [hx, hxs]
    ring

/-- Claim C8: a window whose samples all equal a constant `v > 0` excludes
nothing, is not zero-padded, and its emitted smoothed value is `v` itself,
an element of the smoothed output. -/
theorem windowMean_const (ratios : List ℚ) (v : ℚ) (window step res i : ℕ)
    (hres : 0 < res) (hstep : 0 < step) (hw : res ≤ window) (hv : 0 < v)
    (hi : i ∈ selectedStarts ratios.length window step res)
    (hall : ∀ x ∈ windowSlice ratios i window res, x = v) :
    windowMean ratios i window res = v ∧
    windowMean ratios i window res ∈ getSmoothedRatios ratios window step res := by
  obtain ⟨m, him, hiw⟩ := selectedStarts_spec ratios.length window step res hres hstep i hi
  have hidiv : i / res = m := by
    rw [him, Nat.mul_div_cancel m hres]
  have hsplit : (i + window) / res = m + window / res := by
    rw [him, Nat.mul_comm m res, Nat.mul_add_div hres]
  have hupper : (i + window) / res ≤ ratios.length :=
    le_of_lt ((Nat.div_lt_iff_lt_mul hres).mpr hiw)
  have hslice_len : (windowSlice ratios i window res).length = window / res := by
    simp only [windowSlice, List.length_take, List.length_drop, hidiv, hsplit]
    have h2 : m + window / res ≤ ratios.length := hsplit ▸ hupper
    rw [Nat.add_sub_cancel_left]
    exact Nat.min_eq_left (Nat.le_sub_of_add_le (by rw [Nat.add_comm]; exact h2))
  have hq1 : 1 ≤ window / res := (Nat.one_le_div_iff hres).mpr hw
  have hsurv : surviving ratios i window res = windowSlice ratios i window res := by
    unfold surviving
    apply List.filter_eq_self.mpr
    intro x hx
    rw [hall x hx]
    simpa using le_of_lt hv
  have key : window < 2 * (res * (window / res)) := by
    have h1 := Nat.div_add_mod window res
    have h2 : window % res < res := Nat.mod_lt _ hres
    have h3 : res ≤ res * (window / res) := Nat.le_mul_of_pos_right res hq1
    set D := res * (window / res) with hD
    omega
  have hnopad : ¬(((surviving ratios i window res).length : ℚ) ≤
      (window : ℚ) / (2 * (res : ℚ))) := by
    rw [hsurv, hslice_len]
    push_neg
    rw [div_lt_iff₀ (by positivity)]
    calc (window : ℚ) < ((2 * (res * (window / res)) : ℕ) : ℚ) := by exact_mod_cast key
      _ = ((window / res : ℕ) : ℚ) * (2 * (res : ℚ)) := by push_cast; ring
  have hfin : theseFinal ratios i window res = windowSlice ratios i window res := by
    unfold theseFinal
    rw [if_neg hnopad, hsurv]
  have hqne : (((window / res : ℕ) : ℚ)) ≠ 0 := by
    have : (0 : ℚ) < ((window / res : ℕ) : ℚ) := by exact_mod_cast hq1
    exact ne_of_gt this
  have hmean : windowMean ratios i window res = v := by
    unfold windowMean
    rw [hfin, list_sum_all_eq _ v hall, hslice_len, mul_div_cancel_left₀ _ hqne]
  exact ⟨hmean, hmean ▸ List.mem_map_of_mem _ hi⟩

/-- Witness for `windowMean_const`: thirty samples of constant ratio `2`,
window `100`, resolution `10`, step `1`, at window start `0`. -/
theorem windowMean_const_witness :
    (0 : ℚ) < 2 ∧ windowMean (List.replicate 30 (2 : ℚ)) 0 100 10 = 2 :=
  ⟨by norm_num,
    (windowMean_const (List.replicate 30 (2 : ℚ)) 2 100 1 10 0 (by decide) (by decide)
      (by decide) (by norm_num) (by decide) (by decide)).1⟩

/-- Claim C9: when every ratio is the sentinel `-1` and
`window >= 2 * resolution`, every window excludes everything, is zero-padded
to a positive count (so the mean's division is by a positive number: the
division-by-zero branch is unreachable), and every smoothed sample is `0`. -/
theorem getSmoothedRatios_all_nodata (ratios : List ℚ) (window step res : ℕ)
    (hall : ∀ x ∈ ratios, x = -1) (hw : 2 * res ≤ window) (hres : 0 < res) :
    (∀ x ∈ getSmoothedRatios ratios window step res, x = 0) ∧
    (∀ i ∈ selectedStarts ratios.length window step res,
      0 < (theseFinal ratios i window res).length) := by
  have hsurv : ∀ i : ℕ, surviving ratios i window res = [] := by
    intro i
    rw [List.eq_nil_iff_forall_not_mem]
    intro x hx
    obtain ⟨hxs, hdec⟩ := List.mem_filter.mp hx
    have hxr : x ∈ ratios :=
      List.mem_of_mem_drop (List.mem_of_mem_take hxs)
    rw [hall x hxr] at hdec
    norm_num at hdec
  have hhalf : (1 : ℚ) ≤ (window : ℚ) / (2 * (res : ℚ)) := by
    rw [le_div_iff₀ (by positivity)]
    rw [one_mul]
    exact_mod_cast hw
  have hpadpos : 0 < (Int.floor ((window : ℚ) / (2 * (res : ℚ)) - ((0 : ℕ) : ℚ))).toNat := by
    have h1 : (1 : ℤ) ≤ Int.floor ((window : ℚ) / (2 * (res : ℚ)) - ((0 : ℕ) : ℚ)) := by
      apply Int.le_floor.mpr
      push_cast
      simpa using hhalf
    omega
  have hker : ∀ i : ℕ, windowMean ratios i window res = 0 ∧
      0 < (theseFinal ratios i window res).length := by
    intro i
    have hcond : ((surviving ratios i window res).length : ℚ) ≤
        (window : ℚ) / (2 * (res : ℚ)) := by
      rw [hsurv i]
      simpa using le_trans (by norm_num) hhalf
    have hfin : theseFinal ratios i window res =
        List.replicate ((Int.floor ((window : ℚ) / (2 * (res : ℚ)) - ((0 : ℕ) : ℚ))).toNat) 0 := by
      unfold theseFinal
      rw [if_pos hcond, hsurv i]
      simp
    constructor
    · unfold windowMean
      rw [hfin]
      simp
    · rw [hfin, List.length_replicate]
      exact hpadpos
  constructor
  · intro x hx
    obtain ⟨i, _, rfl⟩ := List.mem_map.mp hx
    exact (hker i).1
  · intro i _
    exact (hker i).2

/-- Witness for `getSmoothedRatios_all_nodata` at the spec's scenario
`ratios = [-1, -1, -1]` (window `20`, step `1`, resolution `10`). -/
theorem getSmoothedRatios_all_nodata_witness :
    (∀ x ∈ ([-1, -1, -1] : List ℚ), x = -1) ∧
    ∀ x ∈ getSmoothedRatios [-1, -1, -1] 20 1 10, x = 0 :=
  ⟨by decide,
    (getSmoothedRatios_all_nodata [-1, -1, -1] 20 1 10 (by decide) (by decide) (by decide)).1⟩

/-! ## RegionScanner: Checker.scan_threshold (Structure.py lines 455-535)

Walks `zip(range(offset, len(values)*resolution + offset, resolution),
values)` with a `collecting` flag, recording boundary positions on each
crossing; if the boundary list ends with odd length, `genome_length` is
appended; boundaries are then paired up and regions touching either buffer
zone are dropped.  Positions are Python ints, modelled as `ℤ`; the position
walk matches the source's `range` for `0 < resolution`. -/

/-- Comparison selection of `Checker.scan_threshold`: the four supported
operator strings, any other string degrading to a constantly-false test. -/
def thresholdCrossed (test : String) (threshold v : ℚ) : Bool :=
  if test = ">=" then decide (v ≥ threshold)
  else if test = "<=" then decide (v ≤ threshold)
  else if test = "<" then decide (v < threshold)
  else if test = ">" then decide (v > threshold)
  else false

/-- Boundary-collection loop of `Checker.scan_threshold`: `pos` is the
current genomic position, `c` the `collecting` flag. -/
def scanBoundaries (tc : ℚ → Bool) (res : ℤ) : ℤ → Bool → List ℚ → List ℤ
  | _, _, [] => []
  | pos, c, v :: rest =>
    if tc v then
      if c then scanBoundaries tc res (pos + res) true rest
      else pos :: scanBoundaries tc res (pos + res) true rest
    else
      if c then pos :: scanBoundaries tc res (pos + res) false rest
      else scanBoundaries tc res (pos + res) false rest

/-- End-of-run completion rule: an odd boundary list is completed with
`genome_length` as the final end. -/
def completedBoundaries (tc : ℚ → Bool) (res offset gl : ℤ) (values : List ℚ) : List ℤ :=
  if (scanBoundaries tc res offset false values).length % 2 = 0 then
    scanBoundaries tc res offset false values
  else scanBoundaries tc res offset false values ++ [gl]

/-- Pairing of the flattened boundary list into `(start, end)` regions,
as `[l[n:n+2] for n in range(0, len(l), 2)]` on an even-length list. -/
def pairUp : List ℤ → List (ℤ × ℤ)
  | a :: b :: rest => (a, b) :: pairUp rest
  | _ => []

/-- `Checker.scan_threshold` for a list-shaped (dense) input signal. -/
def scan_threshold (values : List ℚ) (threshold : ℚ) (offset : ℤ) (test : String)
    (res buffer gl : ℤ) : List (ℤ × ℤ) :=
  (pairUp (completedBoundaries (thresholdCrossed test threshold) res offset gl values)).filter
    (fun r => decide (buffer < r.1) && decide (r.2 < (values.length : ℤ) * res + offset - buffer))

/-- Every boundary recorded by the walk lies in the scanned coordinate
extent `[pos, pos + len * res)`. -/
theorem scanBoundaries_bounds (tc : ℚ → Bool) (res : ℤ) (hres : 0 < res) :
    ∀ (vs : List ℚ) (pos : ℤ) (c : Bool),
      ∀ b ∈ scanBoundaries tc res pos c vs, pos ≤ b ∧ b < pos + (vs.length : ℤ) * res := by
  intro vs
  induction vs with
  | nil => intro pos c b hb; simp [scanBoundaries] at hb
  | cons v rest ih =>
    intro pos c b hb
    have hlen : ((v :: rest).length : ℤ) * res = res + (rest.length : ℤ) * res := by
      push_cast [List.length_cons]
      ring
    have hl : (0 : ℤ) < ((v :: rest).length : ℤ) := by
      exact_mod_cast Nat.succ_pos rest.length
    have hpos : 0 < ((v :: rest).length : ℤ) * res := mul_pos hl hres
    have step : b ∈ scanBoundaries tc res (pos + res) (tc v) rest ∨ b = pos →
        pos ≤ b ∧ b < pos + ((v :: rest).length : ℤ) * res := by
      rintro (h | rfl)
      · obtain ⟨h1, h2⟩ := ih (pos + res) (tc v) b h
        constructor
        · linarith
        · rw [hlen]; linarith
      · exact ⟨le_refl _, by linarith⟩
    simp only [scanBoundaries] at hb
    by_cases htc : tc v <;> cases c <;> simp [htc] at hb <;>
      first
        | exact step (Or.inl (by simpa [htc] using hb))
        | (rcases hb with rfl | hb
           · exact step (Or.inr rfl)
           · exact step (Or.inl (by simpa [htc] using hb)))

/-- The recorded boundary list is strictly increasing. -/
theorem scanBoundaries_sorted (tc : ℚ → Bool) (res : ℤ) (hres : 0 < res) :
    ∀ (vs : List ℚ) (pos : ℤ) (c : Bool),
      List.Sorted (· < ·) (scanBoundaries tc res pos c vs) := by
  intro vs
  induction vs with
  | nil => intro pos c; simp [scanBoundaries]
  | cons v rest ih =>
    intro pos c
    have hrest : ∀ b ∈ scanBoundaries tc res (pos + res) (tc v) rest, pos < b := by
      intro b hb
      have := (scanBoundaries_bounds tc res hres rest (pos + res) (tc v) b hb).1
      linarith
    simp only [scanBoundaries]
    by_cases htc : tc v <;> cases c <;> simp [htc] <;>
      first
        | exact ih _ _
        | exact ⟨by simpa [htc] using hrest, ih _ _⟩

/-- The completed boundary list always has even length. -/
theorem completedBoundaries_even (tc : ℚ → Bool) (res offset gl : ℤ) (values : List ℚ) :
    (completedBoundaries tc res offset gl values).length % 2 = 0 := by
  unfold completedBoundaries
  split
  · assumption
  · rename_i h
    simp only [List.length_append, List.length_cons, List.length_nil]
    omega

/-- When the genome length bounds the scanned extent, the completed boundary
list is strictly increasing. -/
theorem completedBoundaries_sorted (tc : ℚ → Bool) (res offset gl : ℤ) (values : List ℚ)
    (hres : 0 < res) (hgl : offset + (values.length : ℤ) * res ≤ gl) :
    List.Sorted (· < ·) (completedBoundaries tc res offset gl values) := by
  unfold completedBoundaries
  split
  · exact scanBoundaries_sorted tc res hres values offset false
  · rw [List.Sorted, List.pairwise_append]
    refine ⟨scanBoundaries_sorted tc res hres values offset false, by simp, ?_⟩
    intro a ha b hb
    rw [List.mem_singleton] at hb
    subst hb
    have := (scanBoundaries_bounds tc res hres values offset false a ha).2
    linarith

/-- Elements of the paired-up region list are boundaries of the input. -/
theorem pairUp_mem : ∀ (l : List ℤ) (r : ℤ × ℤ), r ∈ pairUp l → r.1 ∈ l ∧ r.2 ∈ l
  | [], r, hr => by simp [pairUp] at hr
  | [a], r, hr => by simp [pairUp] at hr
  | a :: b :: rest, r, hr => by
    simp only [pairUp, List.mem_cons] at hr
    rcases hr with rfl | hr
    · simp
    · obtain ⟨h1, h2⟩ := pairUp_mem rest r hr
      exact ⟨by simp [h1], by simp [h2]⟩

/-- Pairing a strictly increasing boundary list gives regions with
`start < end`, pairwise disjoint and in ascending order. -/
theorem pairUp_sorted : ∀ (l : List ℤ), List.Sorted (· < ·) l →
    (∀ r ∈ pairUp l, r.1 < r.2) ∧
      List.Pairwise (fun a b : ℤ × ℤ => a.2 ≤ b.1) (pairUp l)
  | [], _ => by simp [pairUp]
  | [a], _ => by simp [pairUp]
  | a :: b :: rest, h => by
    have ha : ∀ x ∈ b :: rest, a < x := (List.sorted_cons.mp h).1
    have hb : ∀ x ∈ rest, b < x := (List.sorted_cons.mp (List.sorted_cons.mp h).2).1
    have hrest : List.Sorted (· < ·) rest := (List.sorted_cons.mp (List.sorted_cons.mp h).2).2
    obtain ⟨ih1, ih2⟩ := pairUp_sorted rest hrest
    constructor
    · intro r hr
      simp only [pairUp, List.mem_cons] at hr
      rcases hr with rfl | hr
      · exact ha b (by simp)
      · exact ih1 r hr
    · simp only [pairUp]
      refine List.pairwise_cons.mpr ⟨?_, ih2⟩
      intro r hr
      have : r.1 ∈ rest := (pairUp_mem rest r hr).1
      exact le_of_lt (hb r.1 this)

/-- Claim C2 (corrected), counterexample: with signal `[10]`, threshold `5`,
test `>=`, `offset = 100`, `resolution = 10`, `buffer = 0` and
`genome_length = 8`, the completion rule appends `8` below the recorded
start `100`, so the returned region `(100, 8)` violates `start < end`. -/
theorem scan_threshold_claim_cex :
    scan_threshold [10] 5 100 ">=" 10 0 8 = [(100, 8)] ∧ ¬((100 : ℤ) < 8) := by
  constructor
  · rfl
  · decide

/-- Claim C2 (amended): the flattened boundary list is always even-length
after the completion rule; and provided the scanned extent fits the genome
(`offset + len * resolution ≤ genome_length`, as in the pipeline) with
positive resolution, every returned region has `start < end` and the regions
are pairwise disjoint in ascending coordinate order. -/
theorem scan_threshold_regions_sorted (values : List ℚ) (threshold : ℚ) (offset : ℤ)
    (test : String) (res buffer gl : ℤ) (hres : 0 < res)
    (hgl : offset + (values.length : ℤ) * res ≤ gl) :
    (completedBoundaries (thresholdCrossed test threshold) res offset gl values).length % 2 = 0 ∧
    (∀ r ∈ scan_threshold values threshold offset test res buffer gl, r.1 < r.2) ∧
    List.Pairwise (fun a b : ℤ × ℤ => a.2 ≤ b.1)
      (scan_threshold values threshold offset test res buffer gl) := by
  have hsorted := completedBoundaries_sorted (thresholdCrossed test threshold) res offset gl
    values hres hgl
  obtain ⟨h1, h2⟩ := pairUp_sorted _ hsorted
  refine ⟨completedBoundaries_even _ _ _ _ _, ?_, ?_⟩
  · intro r hr
    exact h1 r (List.mem_of_mem_filter hr)
  · exact List.Pairwise.filter _ h2

/-- Witness for `scan_threshold_regions_sorted` on the spec's scenario signal
(with a genome length covering the scanned extent). -/
theorem scan_threshold_regions_sorted_witness :
    ((0 : ℤ) < 1 ∧ (1 : ℤ) + (([0, 0, 6, 6, 6, 6, 0, 0] : List ℚ).length : ℤ) * 1 ≤ 9) ∧
    ∀ r ∈ scan_threshold [0, 0, 6, 6, 6, 6, 0, 0] 5 1 ">=" 1 0 9, r.1 < r.2 :=
  ⟨⟨by decide, by norm_num⟩,
    (scan_threshold_regions_sorted [0, 0, 6, 6, 6, 6, 0, 0] 5 1 ">=" 1 0 9
      (by decide) (by norm_num)).2.1⟩

/-- Claim C5: an unsupported comparison operator string degrades to a
constantly-false test, so the scan records no boundaries and the stored
region list is empty (the call is total: no abort). -/
theorem scan_threshold_unknown_test (values : List ℚ) (threshold : ℚ) (offset : ℤ)
    (res buffer gl : ℤ) (test : String) (h1 : test ≠ ">") (h2 : test ≠ ">=")
    (h3 : test ≠ "<") (h4 : test ≠ "<=") :
    scan_threshold values threshold offset test res buffer gl = [] := by
  have htc : ∀ v, thresholdCrossed test threshold v = false := by
    intro v
    simp [thresholdCrossed, h1, h2, h3, h4]
  have hscan : ∀ (vs : List ℚ) (pos : ℤ), scanBoundaries (thresholdCrossed test threshold)
      res pos false vs = [] := by
    intro vs
    induction vs with
    | nil => intro pos; simp [scanBoundaries]
    | cons v rest ih => intro pos; simp [scanBoundaries, htc v, ih]
  simp [scan_threshold, completedBoundaries, hscan, pairUp]

/-- Witness for `scan_threshold_unknown_test` at the operator string `!=`. -/
theorem scan_threshold_unknown_test_witness :
    (("!=" : String) ≠ ">" ∧ ("!=" : String) ≠ ">=" ∧ ("!=" : String) ≠ "<" ∧
      ("!=" : String) ≠ "<=") ∧
    scan_threshold [1, 2, 3] 0 0 "!=" 10 0 100 = [] :=
  ⟨⟨by decide, by decide, by decide, by decide⟩,
    scan_threshold_unknown_test [1, 2, 3] 0 0 10 0 100 "!=" (by decide) (by decide)
      (by decide) (by decide)⟩

/-- Claim C7: regions surviving the buffer filter satisfy
`buffer < start` and `end < len(values) * resolution + offset - buffer`. -/
theorem scan_threshold_buffer (values : List ℚ) (threshold : ℚ) (offset : ℤ) (test : String)
    (res buffer gl : ℤ) (_hres : 0 < res) :
    ∀ r ∈ scan_threshold values threshold offset test res buffer gl,
      buffer < r.1 ∧ r.2 < (values.length : ℤ) * res + offset - buffer := by
  intro r hr
  have := List.of_mem_filter hr
  simp only [Bool.and_eq_true, decide_eq_true_eq] at this
  exact this

/-- Witness for `scan_threshold_buffer` at the spec's scenario: the region
`(3, 7)` is returned and respects the (zero-width) buffer bounds. -/
theorem scan_threshold_buffer_witness :
    (0 : ℤ) < ((3 : ℤ), (7 : ℤ)).1 ∧
    ((3 : ℤ), (7 : ℤ)).2 < (([0, 0, 6, 6, 6, 6, 0, 0] : List ℚ).length : ℤ) * 1 + 1 - 0 :=
  scan_threshold_buffer [0, 0, 6, 6, 6, 6, 0, 0] 5 1 ">=" 1 0 8 (by decide)
    ((3 : ℤ), (7 : ℤ)) (by decide)

/-! ## RegionMerger: Checker.extend_regions (Structure.py lines 540-601)

For each consecutive pair of base regions the gap is bridged by a forward
(left-to-right) window sweep and, on failure, a symmetric backward sweep.
Coordinates are nonnegative Python ints (Nat, with Nat division matching
Python 2 floor division); `int(round(window_size / 2.0))` is `(ws + 1) / 2`
since Python 2 rounds halves away from zero. -/

/-- Python slice `ratios[a : b]`. -/
def ratioSlice (ratios : List ℚ) (a b : ℕ) : List ℚ :=
  (ratios.drop a).take (b - a)

/-- Failure test of one sweep window at position `p`: the sweep stops when
`len([r for r in these_ratios if r < 0]) < window_size / resolution * threshold`. -/
def windowFails (ratios : List ℚ) (ws res : ℕ) (threshold : ℚ) (p : ℕ) : Bool :=
  decide ((((ratioSlice ratios (p / res) ((p + ws) / res)).filter
      (fun r => decide (r < 0))).length : ℚ) < ((ws / res : ℕ) : ℚ) * threshold)

/-- Gap processing of `Checker.extend_regions` for one consecutive pair of
base regions: `right` is the left region's end, `next_left` the right
region's start. -/
def gapExtend (ratios : List ℚ) (ws res : ℕ) (threshold : ℚ) (right next_left : ℕ) :
    List (ℕ × ℕ) :=
  if right < next_left - ws then
    match (List.range' right (next_left - ws - right)).find?
        (windowFails ratios ws res threshold) with
    | none => [(right, next_left)]
    | some p =>
      let first := if right < p then [(right, p + (ws + 1) / 2)] else []
      let e := if right < p then p + (ws + 1) / 2 else right
      match ((List.range' e (next_left - ws - e)).reverse).find?
          (windowFails ratios ws res threshold) with
      | none => first ++ [(e, next_left)]
      | some q =>
        if q < next_left - ws - 1 then first ++ [(q + (ws + 1) / 2, next_left)] else first
  else
    if (((ratioSlice ratios (right / res) (next_left / res)).filter
        (fun r => decide (r ≤ 0))).length : ℚ) >
        (((next_left - right) / res : ℕ) : ℚ) * threshold
    then [(right, next_left)] else []

/-- `Checker.extend_regions`: process each consecutive pair of base regions. -/
def extend_regions (base : List (ℕ × ℕ)) (ratios : List ℚ) (ws res : ℕ)
    (threshold : ℚ) : List (ℕ × ℕ) :=
  (base.zip base.tail).flatMap (fun x => gapExtend ratios ws res threshold x.1.2 x.2.1)

/-- Ratio series of the C3 scenario: every sample between genomic positions
150 and 400 (indices 15..40 at resolution 10) is the `NO_DATA` sentinel. -/
def ratiosC3 : List ℚ :=
  (List.range 45).map (fun i => if 15 ≤ i ∧ i ≤ 40 then (-1 : ℚ) else 0)

/-- Kernel-computable restatement of `windowFails` at threshold `3/20`
(rational arithmetic does not reduce in the kernel, so the comparison is
cleared of denominators). -/
def windowFailsN (ratios : List ℚ) (ws res : ℕ) (p : ℕ) : Bool :=
  decide (20 * ((ratioSlice ratios (p / res) ((p + ws) / res)).filter
      (fun r => decide (r < 0))).length < 3 * (ws / res))

/-- Helper: at threshold `3/20` the sweep failure test agrees with its
denominator-cleared form. -/
theorem windowFails_three_twentieths (ratios : List ℚ) (ws res p : ℕ) :
    windowFails ratios ws res (3 / 20) p = windowFailsN ratios ws res p := by
  unfold windowFails windowFailsN
  set c := ((ratioSlice ratios (p / res) ((p + ws) / res)).filter
    (fun r => decide (r < 0))).length with hc
  set q := ws / res with hq
  rw [decide_eq_decide]
  rw [show ((q : ℕ) : ℚ) * (3 / 20) = ((3 * q : ℕ) : ℚ) / 20 by push_cast; ring]
  rw [lt_div_iff₀ (by norm_num : (0 : ℚ) < 20)]
  rw [show ((c : ℕ) : ℚ) * 20 = ((20 * c : ℕ) : ℚ) by push_cast; ring]
  exact Nat.cast_lt

/-- Claim C3: for base regions `(100,150)` and `(400,450)`, window size 100,
resolution 10, threshold 0.15 and all intervening ratio samples `NO_DATA`,
the forward sweep never fails and exactly the bridge `(150, 400)` is
emitted. -/
theorem extend_regions_bridges_gap :
    (List.range' 150 150).find? (windowFails ratiosC3 100 10 (3 / 20)) = none ∧
    extend_regions [(100, 150), (400, 450)] ratiosC3 100 10 (3 / 20) = [(150, 400)] := by
  have hfun : windowFails ratiosC3 100 10 (3 / 20) = windowFailsN ratiosC3 100 10 :=
    funext (fun p => windowFails_three_twentieths ratiosC3 100 10 p)
  have h1 : (List.range' 150 (400 - 100 - 150)).find?
      (windowFails ratiosC3 100 10 (3 / 20)) = none := by
    rw [hfun]
    decide
  constructor
  · rw [hfun]
    decide
  · show gapExtend ratiosC3 100 10 (3 / 20) 150 400 ++ [] = [(150, 400)]
    unfold gapExtend
    rw [if_pos (by decide : (150 : ℕ) < 400 - 100), h1]
    rfl

/-! ## InsertSizeEstimator: Checker.getMeanInsertSize (Structure.py lines 327-373)

Qualifying reads are proper-pair, first-of-pair, non-duplicate,
non-qcfail reads at or above the mapping quality cutoff; the insert length
is `abs(read.template_length)`, kept when strictly below `upper_limit`.
The mean `sum(isizes) / float(len(isizes))` raises ZeroDivisionError on an
empty sample, modelled as `none`. -/

/-- Alignment-record fields consumed by `Checker.getMeanInsertSize`. -/
structure BamRead where
  is_proper_pair : Bool
  is_read1 : Bool
  is_duplicate : Bool
  is_qcfail : Bool
  mapping_quality : ℕ
  template_length : ℤ

/-- Read filter of the insert-size loop. -/
def readQualifies (min_mapping_quality : ℕ) (r : BamRead) : Bool :=
  r.is_proper_pair && r.is_read1 && !r.is_duplicate && !r.is_qcfail &&
    decide (min_mapping_quality ≤ r.mapping_quality)

/-- The collected insert sizes: qualifying reads' absolute template lengths
strictly below `upper_limit`. -/
def isizes (reads : List BamRead) (upper_limit min_mapping_quality : ℕ) : List ℕ :=
  ((reads.filter (readQualifies min_mapping_quality)).map
    (fun r => r.template_length.natAbs)).filter (fun l => decide (l < upper_limit))

/-- Arithmetic mean of a rational list. -/
def arithmeticMean (l : List ℚ) : ℚ := l.sum / (l.length : ℚ)

/-- `Checker.getMeanInsertSize` (cache-less path): `none` models the
unhandled ZeroDivisionError on an empty filtered sample. -/
def getMeanInsertSize (reads : List BamRead) (upper_limit min_mapping_quality : ℕ) :
    Option ℚ :=
  if isizes reads upper_limit min_mapping_quality = [] then none
  else some (arithmeticMean ((isizes reads upper_limit min_mapping_quality).map
    (fun l => (l : ℚ))))

/-- Claim C6: the estimate is the arithmetic mean of exactly the qualifying
fragment lengths strictly below `upper_limit` (lengths `>= upper_limit` are
excluded), and an empty filtered sample makes the operation fail (`none`)
rather than return a number. -/
theorem getMeanInsertSize_spec (reads : List BamRead) (upper_limit min_mapping_quality : ℕ) :
    (∀ l ∈ isizes reads upper_limit min_mapping_quality, l < upper_limit) ∧
    (getMeanInsertSize reads upper_limit min_mapping_quality = none ↔
      isizes reads upper_limit min_mapping_quality = []) ∧
    (isizes reads upper_limit min_mapping_quality ≠ [] →
      getMeanInsertSize reads upper_limit min_mapping_quality =
        some (arithmeticMean ((isizes reads upper_limit min_mapping_quality).map
          (fun l => (l : ℚ))))) := by
  refine ⟨?_, ?_, ?_⟩
  · intro l hl
    have := List.of_mem_filter hl
    simpa using this
  · unfold getMeanInsertSize
    split
    · simpa
    · simpa
  · intro h
    unfold getMeanInsertSize
    rw [if_neg h]

/-- Concrete read sample for the C6 witness: one qualifying short fragment,
one qualifying fragment at the upper limit, one duplicate. -/
def witnessReads : List BamRead :=
  [⟨true, true, false, false, 60, 90⟩,
   ⟨true, true, false, false, 60, -110⟩,
   ⟨true, true, true, false, 60, 95⟩]

/-- Witness for `getMeanInsertSize_spec`: with `upper_limit = 100` only the
length-90 fragment survives and the mean is `90`. -/
theorem getMeanInsertSize_spec_witness :
    isizes witnessReads 100 30 ≠ [] ∧ getMeanInsertSize witnessReads 100 30 = some 90 :=
  ⟨by decide, by
    have h := (getMeanInsertSize_spec witnessReads 100 30).2.2 (by decide)
    rw [h]
    norm_num [arithmeticMean, isizes, witnessReads, readQualifies]⟩

/-! ## Orchestrator threshold derivation: checkStructure (Structure.py
lines 115, 142-146)

`use_smoothed_ratios = [m for m in checker.smoothed_ratios if m != 0]`,
`mean_smoothed_ratios = sum(...) / len(...)`,
`checker.threshold = mean_smoothed_ratios * mean_param`, with the signature
default `mean_param = 5`. -/

/-- Non-zero smoothed entries retained for threshold derivation. -/
def use_smoothed_ratios (smoothed : List ℚ) : List ℚ :=
  smoothed.filter (fun m => decide (m ≠ 0))

/-- Operating threshold computed by `checkStructure`. -/
def checkStructure_threshold (smoothed : List ℚ) (mean_param : ℚ) : ℚ :=
  ((use_smoothed_ratios smoothed).sum / ((use_smoothed_ratios smoothed).length : ℚ)) *
    mean_param

/-- Default of the `mean_param` keyword argument of `checkStructure`. -/
def checkStructure_mean_param_default : ℚ := 5

/-- Claim C4: with at least one non-zero smoothed entry, the operating
threshold is the arithmetic mean of the non-zero smoothed entries times
`mean_param` (a division by a positive count), and `mean_param` defaults
to `5`. -/
theorem checkStructure_threshold_spec (smoothed : List ℚ) (mean_param : ℚ)
    (h : use_smoothed_ratios smoothed ≠ []) :
    checkStructure_threshold smoothed mean_param =
      arithmeticMean (smoothed.filter (fun m => decide (m ≠ 0))) * mean_param ∧
    0 < (use_smoothed_ratios smoothed).length ∧
    checkStructure_mean_param_default = 5 := by
  refine ⟨rfl, ?_, rfl⟩
  exact List.length_pos.mpr h

/-- Witness for `checkStructure_threshold_spec` at `smoothed = [1, 0, 3]`,
`mean_param = 5`: the derived threshold is `((1 + 3) / 2) * 5 = 10`. -/
theorem checkStructure_threshold_spec_witness :
    use_smoothed_ratios [1, 0, 3] ≠ [] ∧ checkStructure_threshold [1, 0, 3] 5 = 10 :=
  ⟨by decide, by
    have h := (checkStructure_threshold_spec [1, 0, 3] 5 (by decide)).1
    rw [h]
    norm_num [arithmeticMean, use_smoothed_ratios]⟩

end Baga
